import Mathlib

/-!
Shallow embedding of the content-based recommendation core
(`src/server/cb-service/src`): features.py, filters.py, retrieval.py,
ranking.py, recommender.py, metrics.py.

Modelling conventions:
- Python `str` is modelled as `List Char` (`PyStr`); `str.strip()` as
  `pyStrip`, `str.lower()` as `pyLower` (per-character `Char.toLower`).
- Python `dict` is modelled as an insertion-ordered association list with
  unique keys; `d[k] = v` keeps the position of an existing key and appends
  a fresh key at the end, exactly as CPython dicts do.
- Python `float` is modelled as `ℚ`; the single transcendental operation
  `math.sqrt` is abstracted as an explicit function parameter `sqrt : ℚ → ℚ`
  threaded through every definition that normalizes (none of the verified
  claims depends on the value of the square root, only on the fact that both
  sides of an equation apply it to the same argument).
- `math.log2` in metrics.py is likewise abstracted as `log2 : ℕ → ℚ`
  (it is only ever applied to integer ranks).
- Python `set(...)` iteration (in `Featurizer.transform`) has unspecified
  order; it is modelled as first-occurrence de-duplication.  All writes in a
  facet store the same weight, so the resulting dict does not depend on the
  chosen order.
-/

/-- Python strings, modelled as lists of characters. -/
abbrev PyStr := List Char

/-- Python truthiness of a string: non-empty. -/
def pyTruthy (s : PyStr) : Bool := !s.isEmpty

/-- `str.lower()`, modelled per character. -/
def pyLower (s : PyStr) : PyStr := s.map Char.toLower

/-- `str.strip()`: drop leading and trailing whitespace. -/
def pyStrip (s : PyStr) : PyStr :=
  ((s.dropWhile Char.isWhitespace).reverse.dropWhile Char.isWhitespace).reverse

/-- Lexicographic comparison on character lists: the order Python's
`sorted` uses on strings. -/
def lexLe : List Char → List Char → Bool
  | [], _ => true
  | _ :: _, [] => false
  | a :: as, b :: bs => if a < b then true else if b < a then false else lexLe as bs

/-- Insertion-ordered association list standing for a Python `dict`. -/
abbrev Dict (κ ν : Type) := List (κ × ν)

/-- `d.get(k)`: first binding of `k` (keys are unique in any dict the code
builds, so "first" is "the" binding). -/
def dget {κ ν : Type} [DecidableEq κ] : Dict κ ν → κ → Option ν
  | [], _ => none
  | p :: d, k => if p.1 = k then some p.2 else dget d k

/-- `d[k] = v`: replace in place if the key exists, else append at the end
(CPython dict insertion-order semantics). -/
def dset {κ ν : Type} [DecidableEq κ] : Dict κ ν → κ → ν → Dict κ ν
  | [], k, v => [(k, v)]
  | p :: d, k, v => if p.1 = k then (k, v) :: d else p :: dset d k v

/-- The keys of a dict, in insertion order. -/
def dkeys {κ ν : Type} (d : Dict κ ν) : List κ := d.map Prod.fst

/-- features.py: `SparseVector = Dict[int, float]`, index -> weight. -/
abbrev SparseVector := Dict Nat ℚ

/-- features.py `_l2_normalize_sparse`: in-place L2 normalization; a
nonpositive sum of squares leaves the vector unchanged. -/
def _l2_normalize_sparse (sqrt : ℚ → ℚ) (vec : SparseVector) : SparseVector :=
  let s := vec.foldl (fun acc p => acc + p.2 * p.2) 0
  if s ≤ 0 then vec
  else
    let inv := 1 / sqrt s
    vec.map (fun p => (p.1, p.2 * inv))

/-- features.py `add_scaled`: `dst += scale * src` (in place). -/
def add_scaled (dst : SparseVector) (src : SparseVector) (scale : ℚ) : SparseVector :=
  src.foldl (fun d p => dset d p.1 ((dget d p.1).getD 0 + scale * p.2)) dst

/-- One direction of the dot product: iterate `a`, look keys up in `b`. -/
def dotAgainst (a b : SparseVector) : ℚ :=
  a.foldl (fun s p => match dget b p.1 with
    | none => s
    | some bv => s + p.2 * bv) 0

/-- features.py `cosine_sparse`: dot product over common keys, iterating the
smaller dict. -/
def cosine_sparse (a b : SparseVector) : ℚ :=
  if a.length > b.length then dotAgainst b a else dotAgainst a b

/-- data_models.py `User` (the fields this core reads). -/
structure User where
  id : PyStr
  age : Option ℤ := none
  gender : Option PyStr := none
  favorite_category : Option PyStr := none
  preference_gender : Option PyStr := none
  preference_age_min : Option ℤ := none
  preference_age_max : Option ℤ := none
  favorite_games : List PyStr := []
  languages : List PyStr := []
  preference_categories : List PyStr := []
  preference_languages : List PyStr := []
  liked : List PyStr := []
  disliked : List PyStr := []
deriving DecidableEq

/-- io_backend.py `_dedup_keep_order`, with the `seen` set made explicit. -/
def pyDedupAux {α : Type} [DecidableEq α] : List α → List α → List α
  | _, [] => []
  | seen, x :: xs =>
    if x ∈ seen then pyDedupAux seen xs else x :: pyDedupAux (x :: seen) xs

/-- io_backend.py `_dedup_keep_order`: drop duplicates, keep first
occurrence order. -/
def _dedup_keep_order {α : Type} [DecidableEq α] (items : List α) : List α :=
  pyDedupAux [] items

/-- filters.py `make_eligibility_filter`: the predicate `_ok` applied to a
candidate `u`, given the probe (target) user. -/
def make_eligibility_filter (probe : User) (u : User) : Bool :=
  -- age window: each bound is tested on its own, whenever it is present
  if (match probe.preference_age_min, u.age with
      | some mn, some a => decide (a < mn)
      | _, _ => false) then false
  else if (match probe.preference_age_max, u.age with
      | some mx, some a => decide (a > mx)
      | _, _ => false) then false
  else
    -- gender: `if probe.preference_gender:` is string truthiness
    match probe.preference_gender with
    | none => true
    | some pg =>
      if pyTruthy pg then
        let pref := pyLower (pyStrip pg)
        if pref ≠ "any".toList ∧ pref ≠ [] then
          match u.gender with
          | none => true
          | some g => if pyTruthy g ∧ pyLower g ≠ pref then false else true
        else true
      else true

/-- features.py `FeaturizerConfig` (facet weights, normalization switch). -/
structure FeaturizerConfig where
  w_games : ℚ := 1
  w_categories : ℚ := 8/10
  w_languages : ℚ := 6/10
  l2_normalize : Bool := true
deriving DecidableEq

/-- features.py `FeaturizerState`: three token→index vocabularies, facet
offsets, total dimension. -/
structure FeaturizerState where
  vocab_games : Dict PyStr Nat := []
  vocab_categories : Dict PyStr Nat := []
  vocab_languages : Dict PyStr Nat := []
  offset_games : Nat := 0
  offset_categories : Nat := 0
  offset_languages : Nat := 0
  dim : Nat := 0
deriving DecidableEq

/-- `for i, t in enumerate(tokens): vocab[t] = off + i` — the token lists
this is applied to are duplicate-free, so each assignment appends. -/
def vocabOf : List PyStr → Nat → Dict PyStr Nat
  | [], _ => []
  | t :: ts, off => (t, off) :: vocabOf ts (off + 1)

/-- Facet-token preprocessing in `fit`:
`sorted(_dedup_keep_order([x.strip() for x in raw if x.strip()]))`. -/
def fitTokens (raw : List PyStr) : List PyStr :=
  List.insertionSort (fun a b => lexLe a b = true)
    (_dedup_keep_order ((raw.filter (fun x => pyTruthy (pyStrip x))).map pyStrip))

/-- Raw game tokens collected by `fit`: each user's non-empty favorite
games, in user order. -/
def rawGames (users : List User) : List PyStr :=
  users.flatMap (fun u => u.favorite_games.filter pyTruthy)

/-- Raw category tokens collected by `fit`: the (truthy) favorite category
followed by the non-empty preferred categories, per user. -/
def rawCategories (users : List User) : List PyStr :=
  users.flatMap (fun u =>
    (match u.favorite_category with
     | some c => if pyTruthy c then [c] else []
     | none => []) ++ u.preference_categories.filter pyTruthy)

/-- Raw language tokens collected by `fit`: UI languages then preferred
languages, per user. -/
def rawLanguages (users : List User) : List PyStr :=
  users.flatMap (fun u =>
    u.languages.filter pyTruthy ++ u.preference_languages.filter pyTruthy)

/-- features.py `Featurizer.fit`: build the three vocabularies, the facet
offsets and the dimension from the training users. -/
def fitState (users : List User) : FeaturizerState :=
  let games := fitTokens (rawGames users)
  let categories := fitTokens (rawCategories users)
  let langs := fitTokens (rawLanguages users)
  let offset_games := 0
  let offset_categories := offset_games + games.length
  let offset_languages := offset_categories + categories.length
  { vocab_games := vocabOf games offset_games
    vocab_categories := vocabOf categories offset_categories
    vocab_languages := vocabOf langs offset_languages
    offset_games := offset_games
    offset_categories := offset_categories
    offset_languages := offset_languages
    dim := offset_languages + langs.length }

/-- features.py `Featurizer`: a config plus the fitted state. -/
structure Featurizer where
  config : FeaturizerConfig := {}
  state : FeaturizerState := {}
deriving DecidableEq

/-- `Featurizer.fit` as a method: replaces the state wholesale. -/
def Featurizer.fit (f : Featurizer) (users : List User) : Featurizer :=
  { config := f.config, state := fitState users }

/-- Fold one facet of `transform`: iterate the (de-duplicated) tokens, look
each up in the vocabulary, set the facet weight on a hit. -/
def transformFacet (vocab : Dict PyStr Nat) (w : ℚ) (tokens : List PyStr)
    (vec : SparseVector) : SparseVector :=
  tokens.foldl (fun v t =>
    match dget vocab t with
    | none => v
    | some idx => dset v idx w) vec

/-- features.py `Featurizer.transform`: convert a user into a sparse vector
using the fitted vocabularies; optionally L2-normalize. -/
def Featurizer.transform (f : Featurizer) (sqrt : ℚ → ℚ) (user : User) : SparseVector :=
  let st := f.state
  let cfg := f.config
  let vec : SparseVector := []
  -- 1) games (presence -> w_games); `set(...)` modelled as de-duplication
  let vec :=
    if user.favorite_games.isEmpty then vec
    else transformFacet st.vocab_games cfg.w_games
      (_dedup_keep_order user.favorite_games) vec
  -- 2) categories: favorite_category (single) + preference_categories
  let vec :=
    match user.favorite_category with
    | some c =>
      if pyTruthy c then
        match dget st.vocab_categories c with
        | none => vec
        | some idx => dset vec idx cfg.w_categories
      else vec
    | none => vec
  let vec :=
    if user.preference_categories.isEmpty then vec
    else transformFacet st.vocab_categories cfg.w_categories
      (_dedup_keep_order user.preference_categories) vec
  -- 3) languages: UI + preference_languages
  let vec :=
    if user.languages.isEmpty then vec
    else transformFacet st.vocab_languages cfg.w_languages
      (_dedup_keep_order user.languages) vec
  let vec :=
    if user.preference_languages.isEmpty then vec
    else transformFacet st.vocab_languages cfg.w_languages
      (_dedup_keep_order user.preference_languages) vec
  -- 4) L2 normalization
  if cfg.l2_normalize then _l2_normalize_sparse sqrt vec else vec

/-- The body of retrieval.py `build_centroid`'s loop: walk `ids` with the
`seen` set, skipping falsy ids, already-seen ids, and ids that do not
resolve to a non-empty vector (`if not v: continue`); accumulate
`weight * vector` and the total weight. -/
def centroidLoop (pool : Dict PyStr SparseVector) (weights : Option (Dict PyStr ℚ)) :
    List PyStr → List PyStr → SparseVector × ℚ → SparseVector × ℚ
  | [], _, st => st
  | i :: ids, seen, (accum, sw) =>
    if pyTruthy i = false ∨ i ∈ seen then centroidLoop pool weights ids seen (accum, sw)
    else
      match dget pool i with
      | none => centroidLoop pool weights ids (i :: seen) (accum, sw)
      | some v =>
        if v.isEmpty then centroidLoop pool weights ids (i :: seen) (accum, sw)
        else
          let w := match weights with
            | none => 1
            | some wm => (dget wm i).getD 1
          centroidLoop pool weights ids (i :: seen) (add_scaled accum v w, sw + w)

/-- retrieval.py `build_centroid`: weighted average of the resolved
vectors, L2-normalized; `None` when the total weight is zero. -/
def build_centroid (sqrt : ℚ → ℚ) (ids : List PyStr) (pool : Dict PyStr SparseVector)
    (weights : Option (Dict PyStr ℚ)) : Option SparseVector :=
  let st := centroidLoop pool weights ids [] ([], 0)
  if st.2 = 0 then none
  else some (_l2_normalize_sparse sqrt (st.1.map (fun p => (p.1, p.2 / st.2))))

/-- retrieval.py `build_like_dislike_centroids`. -/
def build_like_dislike_centroids (sqrt : ℚ → ℚ) (liked_ids disliked_ids : List PyStr)
    (pool : Dict PyStr SparseVector) : Option SparseVector × Option SparseVector :=
  (build_centroid sqrt liked_ids pool none, build_centroid sqrt disliked_ids pool none)

/-- retrieval.py `rocchio_query`:
`alpha*q + beta*lbar - gamma*dbar`, then L2-normalize.  Note that
`if lbar:` skips a missing OR empty centroid, and that adding with a zero
coefficient still inserts explicit zero-valued keys. -/
def rocchio_query (sqrt : ℚ → ℚ) (q_base : SparseVector)
    (lbar dbar : Option SparseVector) (alpha beta gamma : ℚ) : SparseVector :=
  let accum := add_scaled [] q_base alpha
  let accum := match lbar with
    | some l => if l.isEmpty then accum else add_scaled accum l beta
    | none => accum
  let accum := match dbar with
    | some d => if d.isEmpty then accum else add_scaled accum d (-gamma)
    | none => accum
  _l2_normalize_sparse sqrt accum

/-- ranking.py `score_against_pool`: cosine of the query against every pool
entry (minus the optional excluded id), then a stable sort by score
descending (`list.sort(key=score, reverse=True)` is stable, so equal scores
keep pool insertion order). -/
def score_against_pool (query : SparseVector) (pool : Dict PyStr SparseVector)
    (exclude : Option PyStr) : List (PyStr × ℚ) :=
  let skip : PyStr → Bool := fun uid =>
    match exclude with
    | some e => pyTruthy e && uid = e
    | none => false
  let scores := (pool.filter (fun p => !skip p.1)).map
    (fun p => (p.1, cosine_sparse query p.2))
  List.insertionSort (fun a b : PyStr × ℚ => b.2 ≤ a.2) scores

/-- ranking.py `topk`: first `k` entries of an already-sorted list. -/
def topk (scores : List (PyStr × ℚ)) (k : Nat) : List (PyStr × ℚ) :=
  scores.take k

/-- recommender.py `ContentBasedRecommender` (the `_users_cache` field is
never read by `recommend` and is omitted). -/
structure ContentBasedRecommender where
  alpha : ℚ := 1
  beta : ℚ := 6/10
  gamma : ℚ := 3/10
  featurizer : Option Featurizer := none

/-- recommender.py `ContentBasedRecommender.fit`: fit a fresh
default-config Featurizer on the users. -/
def ContentBasedRecommender.fit (r : ContentBasedRecommender) (users : List User) :
    ContentBasedRecommender :=
  { r with featurizer := some (Featurizer.fit {} users) }

/-- recommender.py `ContentBasedRecommender.recommend`. -/
def ContentBasedRecommender.recommend (r : ContentBasedRecommender) (sqrt : ℚ → ℚ)
    (target_user : User) (candidates : List User) (top_k : Nat) (mode : PyStr) :
    List (PyStr × ℚ) :=
  match r.featurizer with
  | none => []
  | some fz =>
    let q_base_all := fz.transform sqrt target_user
    if q_base_all.isEmpty then []
    else
      let users_filtered := candidates.filter
        (fun u => u.id ≠ target_user.id && make_eligibility_filter target_user u)
      if users_filtered.isEmpty then []
      else
        let pool_vecs : Dict PyStr SparseVector := users_filtered.foldl
          (fun pool u =>
            let vec := fz.transform sqrt u
            if vec.isEmpty then pool else dset pool u.id vec) []
        if pool_vecs.isEmpty then []
        else
          let q_query :=
            if mode = "strict".toList then q_base_all
            else
              let c := build_like_dislike_centroids sqrt target_user.liked
                target_user.disliked pool_vecs
              rocchio_query sqrt q_base_all c.1 c.2 r.alpha r.beta r.gamma
          let scores := score_against_pool q_query pool_vecs none
          topk scores top_k

/-- metrics.py `precision_at_k`. -/
def precision_at_k (recommended : List PyStr) (relevant : List PyStr) (k : Nat) : ℚ :=
  if k = 0 then 0
  else
    let effective_k := min k recommended.length
    if effective_k = 0 then 0
    else
      let top_k := recommended.take effective_k
      (top_k.countP (fun uid => uid ∈ relevant) : ℚ) / (effective_k : ℚ)

/-- metrics.py `recall_at_k`. -/
def recall_at_k (recommended : List PyStr) (relevant : List PyStr) (k : Nat) : ℚ :=
  if relevant.length = 0 then 0
  else
    let top_k := recommended.take (min k recommended.length)
    (top_k.countP (fun uid => uid ∈ relevant) : ℚ) / (relevant.length : ℚ)

/-- metrics.py `ndcg_at_k`, inner `dcg_at_k`: `enumerate(..., start=1)` and
discount `1/log2(i+1)`, so a hit at 0-based position `j` contributes
`1/log2(j+2)`. -/
def dcg_at_k (log2 : Nat → ℚ) (ranking : List PyStr) (rel_set : List PyStr)
    (k_val : Nat) : ℚ :=
  ((ranking.take k_val).enum.foldl
    (fun score p => if p.2 ∈ rel_set then score + 1 / log2 (p.1 + 2) else score) 0)

/-- metrics.py `ndcg_at_k`, inner `idcg_at_k`: all relevant first, capped
at `min(num_relevant, k)`. -/
def idcg_at_k (log2 : Nat → ℚ) (num_relevant : Nat) (k_val : Nat) : ℚ :=
  if num_relevant = 0 then 0
  else (List.range (min num_relevant k_val)).foldl
    (fun score i => score + 1 / log2 (i + 2)) 0

/-- metrics.py `ndcg_at_k`. -/
def ndcg_at_k (log2 : Nat → ℚ) (recommended : List PyStr) (relevant : List PyStr)
    (k : Nat) : ℚ :=
  let num_relevant := relevant.length
  if num_relevant = 0 then 0
  else
    let dcg := dcg_at_k log2 recommended relevant k
    let idcg := idcg_at_k log2 num_relevant k
    if idcg = 0 then 0 else dcg / idcg

/-- metrics.py `hit_rate_at_k`. -/
def hit_rate_at_k (recommended : List PyStr) (relevant : List PyStr) (k : Nat) : ℚ :=
  if relevant.length = 0 then 0
  else
    let top_k := recommended.take (min k recommended.length)
    if top_k.any (fun uid => uid ∈ relevant) then 1 else 0

/-- metrics.py `_normalize_recommendations`'s loop, `seen` made explicit:
drop falsy ids, collapse duplicates keeping first occurrence. -/
def normRecAux : List PyStr → List PyStr → List PyStr
  | _, [] => []
  | seen, uid :: rest =>
    if pyTruthy uid = false ∨ uid ∈ seen then normRecAux seen rest
    else uid :: normRecAux (uid :: seen) rest

/-- metrics.py `_normalize_recommendations`. -/
def _normalize_recommendations (recommended : List PyStr) : List PyStr :=
  normRecAux [] recommended

/-- Result shape of metrics.py `calculate_metrics`: one per-K table per
metric. -/
structure MetricsResult where
  precision_k : Dict Nat ℚ
  recall_k : Dict Nat ℚ
  ndcg_k : Dict Nat ℚ
  hit_rate_k : Dict Nat ℚ
deriving DecidableEq

/-- metrics.py `calculate_metrics`: normalize once, then evaluate every
metric at every requested K. -/
def calculate_metrics (log2 : Nat → ℚ) (recommendations : List PyStr)
    (ground_truth : List PyStr) (k_values : List Nat) : MetricsResult :=
  let normalized := _normalize_recommendations recommendations
  { precision_k := k_values.map (fun k => (k, precision_at_k normalized ground_truth k))
    recall_k := k_values.map (fun k => (k, recall_at_k normalized ground_truth k))
    ndcg_k := k_values.map (fun k => (k, ndcg_at_k log2 normalized ground_truth k))
    hit_rate_k := k_values.map (fun k => (k, hit_rate_at_k normalized ground_truth k)) }

/-- Result shape of metrics.py `calculate_product_metrics`. -/
structure ProductMetricsResult where
  mutual_accept_rate : Dict Nat ℚ
  chat_start_rate : Dict Nat ℚ
deriving DecidableEq

/-- metrics.py `calculate_product_metrics`: density of two membership sets
within the (normalized) top-K slate.  `normalized` is duplicate-free, so
`len(set(top_k) & s)` is the count of members of `s` in the slate. -/
def calculate_product_metrics (recommendations : List PyStr)
    (mutual_accepts chat_starts : List PyStr) (k_values : List Nat) : ProductMetricsResult :=
  let normalized := _normalize_recommendations recommendations
  { mutual_accept_rate := k_values.map (fun k =>
      let effective_k := min k normalized.length
      let top_k := normalized.take effective_k
      (k, if effective_k = 0 then 0
          else (top_k.countP (fun uid => uid ∈ mutual_accepts) : ℚ) / (effective_k : ℚ)))
    chat_start_rate := k_values.map (fun k =>
      let effective_k := min k normalized.length
      let top_k := normalized.take effective_k
      (k, if effective_k = 0 then 0
          else (top_k.countP (fun uid => uid ∈ chat_starts) : ℚ) / (effective_k : ℚ))) }

/-! ### Generic lemmas about the embedded primitives -/

theorem lexLe_refl (a : PyStr) : lexLe a a = true := by
  induction a with
  | nil => rfl
  | cons x xs ih => simp [lexLe, ih]

theorem lexLe_trans :
    ∀ a b c : PyStr, lexLe a b = true → lexLe b c = true → lexLe a c = true
  | [], _, _, _, _ => rfl
  | _ :: _, [], _, h, _ => by simp [lexLe] at h
  | _ :: _, _ :: _, [], _, h => by simp [lexLe] at h
  | x :: xs, y :: ys, z :: zs, h1, h2 => by
    simp only [lexLe] at h1 h2 ⊢
    by_cases hxy : x < y
    · by_cases hyz : y < z
      · simp [lt_trans hxy hyz]
      · simp only [if_neg hyz] at h2
        by_cases hzy : z < y
        · simp [hzy] at h2
        · have : y = z := le_antisymm (not_lt.mp hzy) (not_lt.mp hyz)
          simp [this ▸ hxy]
    · simp only [if_neg hxy] at h1
      by_cases hyx : y < x
      · simp [hyx] at h1
      · have hxy' : x = y := le_antisymm (not_lt.mp hyx) (not_lt.mp hxy)
        subst hxy'
        rw [if_neg (lt_irrefl x)] at h1
        by_cases hxz : x < z
        · simp [hxz]
        · simp only [if_neg hxz] at h2 ⊢
          by_cases hzx : z < x
          · simp [hzx] at h2
          · simp only [if_neg hzx] at h2 ⊢
            exact lexLe_trans xs ys zs h1 h2

theorem lexLe_total : ∀ a b : PyStr, lexLe a b = true ∨ lexLe b a = true
  | [], _ => Or.inl rfl
  | _ :: _, [] => Or.inr rfl
  | x :: xs, y :: ys => by
    simp only [lexLe]
    by_cases hxy : x < y
    · exact Or.inl (by simp [hxy])
    · by_cases hyx : y < x
      · exact Or.inr (by simp [hyx])
      · simpa [hxy, hyx] using lexLe_total xs ys

theorem lexLe_antisymm :
    ∀ a b : PyStr, lexLe a b = true → lexLe b a = true → a = b
  | [], [], _, _ => rfl
  | [], _ :: _, _, h => by simp [lexLe] at h
  | _ :: _, [], h, _ => by simp [lexLe] at h
  | x :: xs, y :: ys, h1, h2 => by
    simp only [lexLe] at h1 h2
    by_cases hxy : x < y
    · rw [if_neg (lt_asymm hxy), if_pos hxy] at h2
      exact absurd h2 Bool.false_ne_true
    · by_cases hyx : y < x
      · rw [if_neg (lt_asymm hyx), if_pos hyx] at h1
        exact absurd h1 Bool.false_ne_true
      · have hxy' : x = y := le_antisymm (not_lt.mp hyx) (not_lt.mp hxy)
        simp only [if_neg hxy, if_neg hyx] at h1
        simp only [if_neg hyx, if_neg hxy] at h2
        exact hxy' ▸ congrArg (x :: ·) (lexLe_antisymm xs ys h1 h2)

instance : IsTrans PyStr (fun a b => lexLe a b = true) :=
  ⟨fun a b c => lexLe_trans a b c⟩

instance : IsTotal PyStr (fun a b => lexLe a b = true) :=
  ⟨fun a b => lexLe_total a b⟩

instance : IsAntisymm PyStr (fun a b => lexLe a b = true) :=
  ⟨fun a b => lexLe_antisymm a b⟩

theorem mem_pyDedupAux {α : Type} [DecidableEq α] :
    ∀ (l seen : List α) (x : α), x ∈ pyDedupAux seen l ↔ x ∈ l ∧ x ∉ seen
  | [], seen, x => by simp [pyDedupAux]
  | y :: ys, seen, x => by
    by_cases hy : y ∈ seen
    · rw [pyDedupAux, if_pos hy, mem_pyDedupAux ys seen x]
      constructor
      · rintro ⟨hx, hns⟩; exact ⟨List.mem_cons_of_mem _ hx, hns⟩
      · rintro ⟨hx, hns⟩
        rcases List.mem_cons.mp hx with rfl | hx
        · exact absurd hy hns
        · exact ⟨hx, hns⟩
    · rw [pyDedupAux, if_neg hy]
      constructor
      · intro hx
        rcases List.mem_cons.mp hx with rfl | hx
        · exact ⟨List.mem_cons_self _ _, hy⟩
        · rcases (mem_pyDedupAux ys (y :: seen) x).mp hx with ⟨hx', hns⟩
          exact ⟨List.mem_cons_of_mem _ hx',
            fun hs => hns (List.mem_cons_of_mem _ hs)⟩
      · rintro ⟨hx, hns⟩
        rcases List.mem_cons.mp hx with rfl | hx
        · exact List.mem_cons_self _ _
        · by_cases hxy : x = y
          · exact hxy ▸ List.mem_cons_self _ _
          · exact List.mem_cons_of_mem _ ((mem_pyDedupAux ys (y :: seen) x).mpr
              ⟨hx, by simp [hxy, hns]⟩)

theorem nodup_pyDedupAux {α : Type} [DecidableEq α] :
    ∀ (l seen : List α), (pyDedupAux seen l).Nodup
  | [], _ => List.nodup_nil
  | y :: ys, seen => by
    by_cases hy : y ∈ seen
    · rw [pyDedupAux, if_pos hy]; exact nodup_pyDedupAux ys seen
    · rw [pyDedupAux, if_neg hy]
      refine List.nodup_cons.mpr ⟨fun hmem => ?_, nodup_pyDedupAux ys (y :: seen)⟩
      exact ((mem_pyDedupAux ys (y :: seen) y).mp hmem).2 (List.mem_cons_self _ _)

theorem mem_dedup_keep_order {α : Type} [DecidableEq α] (l : List α) (x : α) :
    x ∈ _dedup_keep_order l ↔ x ∈ l := by
  rw [_dedup_keep_order, mem_pyDedupAux]; simp

theorem nodup_dedup_keep_order {α : Type} [DecidableEq α] (l : List α) :
    (_dedup_keep_order l).Nodup :=
  nodup_pyDedupAux l []

/-- Two lists with the same elements produce the same `fitTokens` result:
de-duplication yields duplicate-free lists with equal membership, and the
lexicographic sort of such lists is unique. -/
theorem fitTokens_perm {l₁ l₂ : List PyStr} (h : l₁.Perm l₂) :
    fitTokens l₁ = fitTokens l₂ := by
  unfold fitTokens
  have hperm : (_dedup_keep_order ((l₁.filter (fun x => pyTruthy (pyStrip x))).map pyStrip)).Perm
      (_dedup_keep_order ((l₂.filter (fun x => pyTruthy (pyStrip x))).map pyStrip)) := by
    rw [List.perm_ext_iff_of_nodup (nodup_dedup_keep_order _) (nodup_dedup_keep_order _)]
    intro a
    rw [mem_dedup_keep_order, mem_dedup_keep_order]
    exact ((h.filter _).map _).mem_iff
  have hs₁ := List.sorted_insertionSort (fun a b => lexLe a b = true)
    (_dedup_keep_order ((l₁.filter (fun x => pyTruthy (pyStrip x))).map pyStrip))
  have hs₂ := List.sorted_insertionSort (fun a b => lexLe a b = true)
    (_dedup_keep_order ((l₂.filter (fun x => pyTruthy (pyStrip x))).map pyStrip))
  exact List.eq_of_perm_of_sorted
    (((List.perm_insertionSort _ _).trans hperm).trans
      (List.perm_insertionSort _ _).symm) hs₁ hs₂

theorem fitState_perm {users₁ users₂ : List User} (h : users₁.Perm users₂) :
    fitState users₁ = fitState users₂ := by
  have hg : fitTokens (rawGames users₁) = fitTokens (rawGames users₂) :=
    fitTokens_perm (List.Perm.flatMap_right _ h)
  have hc : fitTokens (rawCategories users₁) = fitTokens (rawCategories users₂) :=
    fitTokens_perm (List.Perm.flatMap_right _ h)
  have hl : fitTokens (rawLanguages users₁) = fitTokens (rawLanguages users₂) :=
    fitTokens_perm (List.Perm.flatMap_right _ h)
  simp only [fitState, hg, hc, hl]

/-- C7: fitting on any permutation of the user list yields the identical
FeaturizerState — the same token→index mappings for all three facet
vocabularies, the same offsets, and the same dim. -/
theorem fit_deterministic_under_permutation (f : Featurizer)
    {users₁ users₂ : List User} (h : users₁.Perm users₂) :
    Featurizer.fit f users₁ = Featurizer.fit f users₂ := by
  simp only [Featurizer.fit, fitState_perm h]

/-- Concrete sample users for witnesses. -/
def uWitA : User := { id := "a".toList, favorite_games := ["dota".toList, "cs2".toList] }

/-- Concrete sample user for witnesses. -/
def uWitB : User := { id := "b".toList, languages := ["en".toList] }

/-- Witness for C7 at a concrete pair of swapped two-user lists. -/
theorem fit_deterministic_under_permutation_witness :
    Featurizer.fit {} [uWitA, uWitB] = Featurizer.fit {} [uWitB, uWitA] :=
  fit_deterministic_under_permutation {} (List.Perm.swap uWitB uWitA [])

theorem dget_dset {κ ν : Type} [DecidableEq κ] :
    ∀ (d : Dict κ ν) (k0 : κ) (v : ν) (k : κ),
      dget (dset d k0 v) k = if k0 = k then some v else dget d k
  | [], k0, v, k => by simp [dset, dget]
  | p :: d, k0, v, k => by
    by_cases hp : p.1 = k0
    · rw [dset, if_pos hp, dget]
      by_cases hk : k0 = k
      · simp [hk]
      · simp only [if_neg hk, dget, if_neg (hp ▸ hk ∘ (hp ▸ ·) : ¬p.1 = k)]
    · rw [dset, if_neg hp, dget]
      by_cases hpk : p.1 = k
      · have : ¬k0 = k := fun h => hp (hpk ▸ h ▸ rfl)
        simp [hpk, this, dget]
      · rw [if_neg hpk, dget_dset d k0 v k, dget, if_neg hpk]

theorem mem_dkeys_dset {κ ν : Type} [DecidableEq κ] :
    ∀ (d : Dict κ ν) (k0 : κ) (v : ν) (k : κ),
      k ∈ dkeys (dset d k0 v) ↔ k = k0 ∨ k ∈ dkeys d
  | [], k0, v, k => by simp [dset, dkeys]
  | p :: d, k0, v, k => by
    by_cases hp : p.1 = k0
    · rw [dset, if_pos hp]
      simp [dkeys, hp]
    · rw [dset, if_neg hp]
      simp only [dkeys, List.map_cons, List.mem_cons]
      rw [show (dset d k0 v).map Prod.fst = dkeys (dset d k0 v) from rfl,
        mem_dkeys_dset d k0 v k]
      tauto

theorem mem_dkeys_iff_dget {κ ν : Type} [DecidableEq κ] :
    ∀ (d : Dict κ ν) (k : κ), k ∈ dkeys d ↔ ∃ v, dget d k = some v
  | [], k => by simp [dkeys, dget]
  | p :: d, k => by
    by_cases hp : p.1 = k
    · simp [dkeys, dget, hp]
    · simp only [dkeys, List.map_cons, List.mem_cons, dget, if_neg hp]
      rw [show d.map Prod.fst = dkeys d from rfl, mem_dkeys_iff_dget d k]
      simp [Ne.symm hp]

theorem dget_vocabOf_lt :
    ∀ (ts : List PyStr) (off : Nat) (t : PyStr) (i : Nat),
      dget (vocabOf ts off) t = some i → i < off + ts.length
  | [], _, _, _, h => by simp [vocabOf, dget] at h
  | t' :: ts, off, t, i, h => by
    rw [vocabOf, dget] at h
    by_cases ht : t' = t
    · rw [if_pos ht] at h
      have : off = i := by simpa using h
      simp [← this]
    · rw [if_neg ht] at h
      have := dget_vocabOf_lt ts (off + 1) t i h
      simp only [List.length_cons]
      omega

/-- Every index stored in any of `fitState`'s three vocabularies is below
`dim`. -/
theorem fitState_vocab_lt_dim (users : List User) (t : PyStr) (i : Nat) :
    (dget (fitState users).vocab_games t = some i ∨
     dget (fitState users).vocab_categories t = some i ∨
     dget (fitState users).vocab_languages t = some i) →
    i < (fitState users).dim := by
  intro h
  rcases h with h | h | h
  · have := dget_vocabOf_lt _ _ _ _ h
    simp only [fitState] at this ⊢
    omega
  · have := dget_vocabOf_lt _ _ _ _ h
    simp only [fitState] at this ⊢
    omega
  · have := dget_vocabOf_lt _ _ _ _ h
    simp only [fitState] at this ⊢
    omega

/-- `transformFacet` only ever inserts indices found in the vocabulary. -/
theorem transformFacet_bound {n : Nat} {vocab : Dict PyStr Nat} {w : ℚ}
    (hv : ∀ t i, dget vocab t = some i → i < n) :
    ∀ (toks : List PyStr) (vec : SparseVector),
      (∀ k ∈ dkeys vec, k < n) →
      ∀ k ∈ dkeys (transformFacet vocab w toks vec), k < n
  | [], vec, hvec, k, hk => hvec k hk
  | t :: toks, vec, hvec, k, hk => by
    rw [transformFacet, List.foldl_cons] at hk
    cases hlook : dget vocab t with
    | none =>
      rw [hlook] at hk
      exact transformFacet_bound hv toks vec hvec k hk
    | some idx =>
      rw [hlook] at hk
      refine transformFacet_bound hv toks _ (fun k' hk' => ?_) k hk
      rcases (mem_dkeys_dset vec idx w k').mp hk' with rfl | hk'
      · exact hv t _ hlook
      · exact hvec k' hk'

/-- Keys are untouched by L2 normalization. -/
theorem dkeys_l2_normalize (sqrt : ℚ → ℚ) (v : SparseVector) :
    dkeys (_l2_normalize_sparse sqrt v) = dkeys v := by
  rw [_l2_normalize_sparse]
  split
  · rfl
  · simp [dkeys, List.map_map, Function.comp_def]

/-- All vocabulary indices below `n` force all transform indices below
`n`. -/
theorem transform_bound (cfg : FeaturizerConfig) (st : FeaturizerState)
    (sqrt : ℚ → ℚ) (user : User) (n : Nat)
    (hg : ∀ t i, dget st.vocab_games t = some i → i < n)
    (hc : ∀ t i, dget st.vocab_categories t = some i → i < n)
    (hl : ∀ t i, dget st.vocab_languages t = some i → i < n) :
    ∀ p ∈ Featurizer.transform ⟨cfg, st⟩ sqrt user, p.1 < n := by
  intro p hp
  have hp' : p.1 ∈ dkeys (Featurizer.transform ⟨cfg, st⟩ sqrt user) :=
    List.mem_map_of_mem Prod.fst hp
  rw [Featurizer.transform] at hp'
  simp only at hp'
  have hkeys : ∀ v : SparseVector,
      dkeys (if cfg.l2_normalize then _l2_normalize_sparse sqrt v else v) = dkeys v := by
    intro v; split
    · exact dkeys_l2_normalize sqrt v
    · rfl
  rw [hkeys] at hp'
  -- peel the five construction stages from the outside in
  have step1 : ∀ k ∈ dkeys ([] : SparseVector), k < n := by simp [dkeys]
  have step2 : ∀ k ∈ dkeys (if user.favorite_games.isEmpty then ([] : SparseVector)
      else transformFacet st.vocab_games cfg.w_games
        (_dedup_keep_order user.favorite_games) []), k < n := by
    split
    · exact step1
    · exact transformFacet_bound hg _ _ step1
  set v2 := (if user.favorite_games.isEmpty then ([] : SparseVector)
      else transformFacet st.vocab_games cfg.w_games
        (_dedup_keep_order user.favorite_games) []) with hv2
  have step3 : ∀ k ∈ dkeys (match user.favorite_category with
      | some c =>
        if pyTruthy c then
          match dget st.vocab_categories c with
          | none => v2
          | some idx => dset v2 idx cfg.w_categories
        else v2
      | none => v2), k < n := by
    cases hfc : user.favorite_category with
    | none => exact step2
    | some c =>
      by_cases htr : pyTruthy c
      · simp only [htr, if_true]
        cases hlook : dget st.vocab_categories c with
        | none => exact step2
        | some idx =>
          intro k hk
          rcases (mem_dkeys_dset v2 idx cfg.w_categories k).mp hk with rfl | hk
          · exact hc c _ hlook
          · exact step2 k hk
      · simp only [htr, if_false]
        exact step2
  set v3 := (match user.favorite_category with
      | some c =>
        if pyTruthy c then
          match dget st.vocab_categories c with
          | none => v2
          | some idx => dset v2 idx cfg.w_categories
        else v2
      | none => v2) with hv3
  have step4 : ∀ k ∈ dkeys (if user.preference_categories.isEmpty then v3
      else transformFacet st.vocab_categories cfg.w_categories
        (_dedup_keep_order user.preference_categories) v3), k < n := by
    split
    · exact step3
    · exact transformFacet_bound hc _ _ step3
  set v4 := (if user.preference_categories.isEmpty then v3
      else transformFacet st.vocab_categories cfg.w_categories
        (_dedup_keep_order user.preference_categories) v3) with hv4
  have step5 : ∀ k ∈ dkeys (if user.languages.isEmpty then v4
      else transformFacet st.vocab_languages cfg.w_languages
        (_dedup_keep_order user.languages) v4), k < n := by
    split
    · exact step4
    · exact transformFacet_bound hl _ _ step4
  set v5 := (if user.languages.isEmpty then v4
      else transformFacet st.vocab_languages cfg.w_languages
        (_dedup_keep_order user.languages) v4) with hv5
  have step6 : ∀ k ∈ dkeys (if user.preference_languages.isEmpty then v5
      else transformFacet st.vocab_languages cfg.w_languages
        (_dedup_keep_order user.preference_languages) v5), k < n := by
    split
    · exact step5
    · exact transformFacet_bound hl _ _ step5
  exact step6 p.1 hp'

/-- C6: for a Featurizer fitted on any user list, every feature index in
`transform user` lies below the fitted `dim` (indices are naturals, so the
lower bound 0 is automatic). -/
theorem transform_index_lt_dim (f : Featurizer) (users : List User)
    (sqrt : ℚ → ℚ) (user : User) :
    ∀ p ∈ (Featurizer.fit f users).transform sqrt user,
      p.1 < (Featurizer.fit f users).state.dim := by
  intro p hp
  have : (Featurizer.fit f users) = ⟨f.config, fitState users⟩ := rfl
  rw [this] at hp ⊢
  exact transform_bound f.config (fitState users) sqrt user (fitState users).dim
    (fun t i h => fitState_vocab_lt_dim users t i (Or.inl h))
    (fun t i h => fitState_vocab_lt_dim users t i (Or.inr (Or.inl h)))
    (fun t i h => fitState_vocab_lt_dim users t i (Or.inr (Or.inr h)))
    p hp

/-- Witness for C6: a concrete fitted featurizer and user. -/
theorem transform_index_lt_dim_witness :
    (0, (1 : ℚ)) ∈ (Featurizer.fit { config := { l2_normalize := false } }
        [{ id := "a".toList, favorite_games := ["g".toList] }]).transform id
        { id := "b".toList, favorite_games := ["g".toList] } ∧
    (0 : Nat) < (Featurizer.fit { config := { l2_normalize := false } }
        [{ id := "a".toList, favorite_games := ["g".toList] }]).state.dim :=
  ⟨by decide,
   transform_index_lt_dim { config := { l2_normalize := false } }
     [{ id := "a".toList, favorite_games := ["g".toList] }] id
     { id := "b".toList, favorite_games := ["g".toList] }
     (0, (1 : ℚ)) (by decide)⟩

/-- C9: `recommend` fails soft — with no fitted featurizer, or when the
target transforms to the empty vector, it returns the empty list (the
embedding is total, so no exception can occur on any path). -/
theorem recommend_fail_soft (r : ContentBasedRecommender) (sqrt : ℚ → ℚ)
    (target : User) (candidates : List User) (k : Nat) (mode : PyStr) :
    (r.featurizer = none → r.recommend sqrt target candidates k mode = []) ∧
    (∀ fz, r.featurizer = some fz → fz.transform sqrt target = [] →
      r.recommend sqrt target candidates k mode = []) := by
  constructor
  · intro h
    simp only [ContentBasedRecommender.recommend, h]
  · intro fz hfz htr
    simp only [ContentBasedRecommender.recommend, hfz, htr]
    simp

/-- Witness for C9: an unfitted recommender, and a fitted one whose target
has no facet overlap, both return `[]`. -/
theorem recommend_fail_soft_witness :
    ContentBasedRecommender.recommend {} id uWitA [uWitB] 3 "strict".toList = [] ∧
    ContentBasedRecommender.recommend { featurizer := some {} } id uWitA [uWitB] 3
      "strict".toList = [] :=
  ⟨(recommend_fail_soft {} id uWitA [uWitB] 3 "strict".toList).1 rfl,
   (recommend_fail_soft { featurizer := some {} } id uWitA [uWitB] 3
      "strict".toList).2 {} rfl (by decide)⟩

/-- Every entry produced by `score_against_pool` carries a key of the
pool. -/
theorem score_against_pool_keys (q : SparseVector) (pool : Dict PyStr SparseVector)
    (p : PyStr × ℚ) (hp : p ∈ score_against_pool q pool none) : p.1 ∈ dkeys pool := by
  simp only [score_against_pool, List.mem_insertionSort] at hp
  rcases List.mem_map.mp hp with ⟨q', hq', rfl⟩
  exact List.mem_map_of_mem Prod.fst (List.mem_of_mem_filter hq')

/-- Keys of the candidate-pool fold come from the folded users. -/
theorem pool_fold_keys (fz : Featurizer) (sqrt : ℚ → ℚ) :
    ∀ (l : List User) (pool0 : Dict PyStr SparseVector) (k : PyStr),
      k ∈ dkeys (l.foldl (fun pool u =>
        let vec := fz.transform sqrt u
        if vec.isEmpty then pool else dset pool u.id vec) pool0) →
      k ∈ dkeys pool0 ∨ ∃ u ∈ l, u.id = k
  | [], pool0, k, h => Or.inl h
  | u :: l, pool0, k, h => by
    rw [List.foldl_cons] at h
    rcases pool_fold_keys fz sqrt l _ k h with h' | ⟨u', hu', rfl⟩
    · by_cases he : (fz.transform sqrt u).isEmpty
      · rw [if_pos he] at h'
        exact Or.inl h'
      · rw [if_neg he] at h'
        rcases (mem_dkeys_dset pool0 u.id _ k).mp h' with rfl | h''
        · exact Or.inr ⟨u, List.mem_cons_self _ _, rfl⟩
        · exact Or.inl h''
    · exact Or.inr ⟨u', List.mem_cons_of_mem _ hu', rfl⟩

/-- C1: for every fitted recommender, target, candidate list, mode and
`topK`, the result of `recommend` has length at most `topK`, and every id
it contains is the id of some candidate that passed the eligibility
predicate built from the target and differs from the target's own id. -/
theorem recommend_invariants (r : ContentBasedRecommender) (fz : Featurizer)
    (sqrt : ℚ → ℚ) (target : User) (candidates : List User) (k : Nat) (mode : PyStr)
    (hfz : r.featurizer = some fz) :
    (r.recommend sqrt target candidates k mode).length ≤ k ∧
    ∀ p ∈ r.recommend sqrt target candidates k mode,
      p.1 ≠ target.id ∧
      ∃ u ∈ candidates, u.id = p.1 ∧ make_eligibility_filter target u = true := by
  simp only [ContentBasedRecommender.recommend, hfz]
  split
  · simp
  · split
    · simp
    · split
      · simp
      · constructor
        · simp only [topk, List.length_take]
          exact Nat.min_le_left _ _
        · intro p hp
          rw [topk] at hp
          have hp' := List.mem_of_mem_take hp
          have hkey := score_against_pool_keys _ _ p hp'
          rcases pool_fold_keys fz sqrt _ [] p.1 hkey with hfalse | ⟨u, hu, huid⟩
          · simp [dkeys] at hfalse
          · rcases List.mem_filter.mp hu with ⟨hcand, hcond⟩
            rcases (Bool.and_eq_true _ _).mp hcond with ⟨hne, helig⟩
            exact ⟨fun hpe => (of_decide_eq_true hne) (huid.trans hpe),
              u, hcand, huid, helig⟩

/-- Witness for C1 at a concrete fitted recommender with one eligible and
one ineligible candidate. -/
theorem recommend_invariants_witness :
    ((ContentBasedRecommender.fit {} [uWitA, uWitB]).recommend id uWitA [uWitB] 1
      "strict".toList).length ≤ 1 ∧
    ∀ p ∈ (ContentBasedRecommender.fit {} [uWitA, uWitB]).recommend id uWitA [uWitB] 1
      "strict".toList,
      p.1 ≠ uWitA.id ∧
      ∃ u ∈ [uWitB], u.id = p.1 ∧ make_eligibility_filter uWitA u = true :=
  recommend_invariants (ContentBasedRecommender.fit {} [uWitA, uWitB])
    (Featurizer.fit {} [uWitA, uWitB]) id uWitA [uWitB] 1 "strict".toList rfl

/-- The probe user for C3: only a minimum preferred age is specified. -/
def probeMinOnly : User := { id := "p".toList, preference_age_min := some 30 }

/-- The candidate for C3: known age below the probe's minimum. -/
def candAge20 : User := { id := "c".toList, age := some 20 }

/-- C3 (code bug): filters.py's docstring says the age window applies "if
both present", and the spec says a single bound never rejects, but the code
tests each bound on its own: a probe with only `preference_age_min = 30`
rejects a candidate of age 20 even though `preference_age_max` is absent. -/
theorem eligibility_rejects_with_single_bound :
    make_eligibility_filter probeMinOnly candAge20 = false ∧
    probeMinOnly.preference_age_max = none ∧
    candAge20.age = some 20 := by
  refine ⟨by decide, rfl, rfl⟩

/-- A one-element sparse vector used in the C2 counterexample. -/
def svUnit : SparseVector := [(0, 1)]

/-- C2 counterexample: `score_against_pool` has no id tie-break — two pools
that are equal as dicts (same id→vector bindings, different insertion
order) produce differently ordered outputs when scores tie, so the order is
NOT fixed by candidate id independently of pool iteration order. -/
theorem score_against_pool_no_id_tiebreak :
    ([("b".toList, svUnit), ("a".toList, svUnit)] :
        Dict PyStr SparseVector).Perm
      [("a".toList, svUnit), ("b".toList, svUnit)] ∧
    score_against_pool svUnit [("b".toList, svUnit), ("a".toList, svUnit)] none =
      [("b".toList, cosine_sparse svUnit svUnit), ("a".toList, cosine_sparse svUnit svUnit)] ∧
    score_against_pool svUnit [("a".toList, svUnit), ("b".toList, svUnit)] none =
      [("a".toList, cosine_sparse svUnit svUnit), ("b".toList, cosine_sparse svUnit svUnit)] ∧
    score_against_pool svUnit [("b".toList, svUnit), ("a".toList, svUnit)] none ≠
      score_against_pool svUnit [("a".toList, svUnit), ("b".toList, svUnit)] none := by
  refine ⟨List.Perm.swap _ _ _, ?_, ?_, ?_⟩
  · simp [score_against_pool, List.insertionSort, List.orderedInsert]
  · simp [score_against_pool, List.insertionSort, List.orderedInsert]
  · intro h
    rw [show score_against_pool svUnit [("b".toList, svUnit), ("a".toList, svUnit)] none =
        [("b".toList, cosine_sparse svUnit svUnit), ("a".toList, cosine_sparse svUnit svUnit)] by
        simp [score_against_pool, List.insertionSort, List.orderedInsert],
      show score_against_pool svUnit [("a".toList, svUnit), ("b".toList, svUnit)] none =
        [("a".toList, cosine_sparse svUnit svUnit), ("b".toList, cosine_sparse svUnit svUnit)] by
        simp [score_against_pool, List.insertionSort, List.orderedInsert]] at h
    simp at h

/-- C2 (amended): `score_against_pool` returns the pool's cosine scores
sorted by score descending; the sort is stable, so ties keep pool insertion
order (there is no secondary id tie-break). -/
theorem score_against_pool_sorted (q : SparseVector) (pool : Dict PyStr SparseVector)
    (exclude : Option PyStr) :
    (score_against_pool q pool exclude).Sorted
      (fun a b : PyStr × ℚ => b.2 ≤ a.2) ∧
    (score_against_pool q pool exclude).Perm
      ((pool.filter (fun p => !(match exclude with
          | some e => pyTruthy e && p.1 = e
          | none => false))).map (fun p => (p.1, cosine_sparse q p.2))) := by
  constructor
  · haveI : IsTotal (PyStr × ℚ) (fun a b : PyStr × ℚ => b.2 ≤ a.2) :=
      ⟨fun a b => le_total b.2 a.2⟩
    haveI : IsTrans (PyStr × ℚ) (fun a b : PyStr × ℚ => b.2 ≤ a.2) :=
      ⟨fun _ _ _ h1 h2 => le_trans h2 h1⟩
    exact List.sorted_insertionSort _ _
  · exact List.perm_insertionSort _ _

/-- The id list with duplicates used in the C8 counterexample. -/
def recsDup : List PyStr := ["a".toList, "a".toList, "b".toList]

/-- C8 counterexample: the bare metric functions do NOT normalize their
input — `precision_at_k` on a list with a duplicated relevant id differs
from `precision_at_k` on the de-duplicated list (only `calculate_metrics`
and `calculate_product_metrics` normalize). -/
theorem precision_at_k_not_duplicate_invariant :
    precision_at_k recsDup ["a".toList] 2 = 1 ∧
    precision_at_k (_normalize_recommendations recsDup) ["a".toList] 2 = 1 / 2 ∧
    precision_at_k recsDup ["a".toList] 2 ≠
      precision_at_k (_normalize_recommendations recsDup) ["a".toList] 2 := by
  have h1 : precision_at_k recsDup ["a".toList] 2 = 1 := by
    simp [precision_at_k, recsDup]
  have h2 : precision_at_k (_normalize_recommendations recsDup) ["a".toList] 2 = 1 / 2 := by
    simp [precision_at_k, _normalize_recommendations, normRecAux, recsDup, pyTruthy]
  refine ⟨h1, h2, ?_⟩
  rw [h1, h2]
  norm_num

theorem normRecAux_idem :
    ∀ (l seen : List PyStr), normRecAux seen (normRecAux seen l) = normRecAux seen l
  | [], _ => rfl
  | uid :: rest, seen => by
    by_cases hc : pyTruthy uid = false ∨ uid ∈ seen
    · rw [normRecAux, if_pos hc, normRecAux_idem rest seen]
    · rw [normRecAux, if_neg hc, normRecAux, if_neg hc,
        normRecAux_idem rest (uid :: seen)]

/-- C8 (amended): `calculate_metrics` and `calculate_product_metrics`
normalize their recommendation list before computing, so both are invariant
under pre-normalizing the input; the individual metric functions consume
the list they are given verbatim. -/
theorem calculate_metrics_normalize_invariant (log2 : Nat → ℚ)
    (recs gt ma cs : List PyStr) (ks : List Nat) :
    calculate_metrics log2 recs gt ks =
      calculate_metrics log2 (_normalize_recommendations recs) gt ks ∧
    calculate_product_metrics recs ma cs ks =
      calculate_product_metrics (_normalize_recommendations recs) ma cs ks := by
  constructor
  · simp only [calculate_metrics, _normalize_recommendations, normRecAux_idem]
  · simp only [calculate_product_metrics, _normalize_recommendations, normRecAux_idem]

theorem dropWhile_dropWhile {α : Type} (p : α → Bool) :
    ∀ l : List α, (l.dropWhile p).dropWhile p = l.dropWhile p
  | [] => rfl
  | x :: xs => by
    by_cases hx : p x
    · rw [List.dropWhile_cons, if_pos hx, dropWhile_dropWhile p xs]
    · rw [List.dropWhile_cons, if_neg hx, List.dropWhile_cons, if_neg hx]

theorem dropWhile_eq_self_of_isPrefix {α : Type} (p : α → Bool) :
    ∀ {l₁ l₂ : List α}, l₁ <+: l₂ → l₂.dropWhile p = l₂ → l₁.dropWhile p = l₁ := by
  intro l₁ l₂ hpre hl₂
  cases l₁ with
  | nil => rfl
  | cons x t =>
    rcases hpre with ⟨r, hr⟩
    subst hr
    by_cases hx : p x
    · exfalso
      have hlen := (List.dropWhile_suffix (l := t ++ r) p).length_le
      rw [List.cons_append, List.dropWhile_cons, if_pos hx] at hl₂
      have := congrArg List.length hl₂
      simp [List.length_append] at this hlen
      omega
    · rw [List.dropWhile_cons, if_neg hx]

/-- `str.strip()` is idempotent: the vocabulary tokens stored by `fit` are
fixed points of `pyStrip`. -/
theorem pyStrip_idem (s : PyStr) : pyStrip (pyStrip s) = pyStrip s := by
  rw [pyStrip]
  set a := s.dropWhile Char.isWhitespace with ha
  set b := a.reverse.dropWhile Char.isWhitespace with hb
  have hbrev : b.reverse <+: a := by
    have := (List.dropWhile_suffix (l := a.reverse) Char.isWhitespace).reverse
    rwa [List.reverse_reverse] at this
  have haid : a.dropWhile Char.isWhitespace = a := dropWhile_dropWhile _ s
  have h1 : b.reverse.dropWhile Char.isWhitespace = b.reverse :=
    dropWhile_eq_self_of_isPrefix _ hbrev haid
  have h2 : b.dropWhile Char.isWhitespace = b := dropWhile_dropWhile _ a.reverse
  rw [pyStrip, h1, List.reverse_reverse, h2]

theorem dkeys_vocabOf : ∀ (ts : List PyStr) (off : Nat), dkeys (vocabOf ts off) = ts
  | [], _ => rfl
  | t :: ts, off => by
    rw [vocabOf]
    simp only [dkeys, List.map_cons]
    rw [show (vocabOf ts (off + 1)).map Prod.fst = dkeys (vocabOf ts (off + 1)) from rfl,
      dkeys_vocabOf ts (off + 1)]

theorem dget_none_of_not_mem_dkeys {κ ν : Type} [DecidableEq κ]
    (d : Dict κ ν) (k : κ) (h : k ∉ dkeys d) : dget d k = none := by
  cases hg : dget d k with
  | none => rfl
  | some v => exact absurd ((mem_dkeys_iff_dget d k).mpr ⟨v, hg⟩) h

/-- Every token in a fitted facet vocabulary has been whitespace-trimmed. -/
theorem mem_fitTokens_strip_fixed (raw : List PyStr) (t : PyStr)
    (h : t ∈ fitTokens raw) : pyStrip t = t := by
  rw [fitTokens, List.mem_insertionSort, mem_dedup_keep_order] at h
  rcases List.mem_map.mp h with ⟨x, _, rfl⟩
  exact pyStrip_idem x

/-- C10 (amended): `transform` looks tokens up verbatim, and `fit` stores
only trimmed tokens, so a user token carrying surrounding whitespace never
matches any fitted vocabulary and contributes no feature; in particular a
user whose only facet token is such a string transforms to the empty
vector.  (A token differing from a vocabulary token only by letter case is
dropped only when that exact variant is itself absent from the vocabulary —
`fit` does not case-fold, see the counterexample.) -/
theorem transform_verbatim_lookup (users : List User) (t : PyStr)
    (h : pyStrip t ≠ t) :
    dget (fitState users).vocab_games t = none ∧
    dget (fitState users).vocab_categories t = none ∧
    dget (fitState users).vocab_languages t = none ∧
    ∀ (cfg : FeaturizerConfig) (sqrt : ℚ → ℚ) (u : User),
      u.favorite_games = [t] → u.favorite_category = none →
      u.preference_categories = [] → u.languages = [] →
      u.preference_languages = [] →
      Featurizer.transform ⟨cfg, fitState users⟩ sqrt u = [] := by
  have hkey : ∀ raw off, dget (vocabOf (fitTokens raw) off) t = none := by
    intro raw off
    refine dget_none_of_not_mem_dkeys _ _ ?_
    rw [dkeys_vocabOf]
    exact fun hmem => h (mem_fitTokens_strip_fixed raw t hmem)
  refine ⟨hkey _ _, hkey _ _, hkey _ _, ?_⟩
  intro cfg sqrt u hg hfc hpc hlang hplang
  rw [Featurizer.transform]
  simp only [hg, hfc, hpc, hlang, hplang, List.isEmpty_nil, if_true]
  have hdedup : _dedup_keep_order [t] = [t] := rfl
  simp only [List.isEmpty_cons, if_false, hdedup, transformFacet, List.foldl_cons,
    List.foldl_nil]
  rw [show (fitState users).vocab_games = vocabOf (fitTokens (rawGames users)) 0 from rfl,
    hkey (rawGames users) 0]
  split
  · rw [_l2_normalize_sparse]
    simp
  · rfl

/-- Witness for C10: the whitespace-padded token `" dota"` is absent from
every vocabulary of a concrete fit, and a user carrying only it transforms
to the empty vector. -/
theorem transform_verbatim_lookup_witness :
    dget (fitState [uWitA]).vocab_games " dota".toList = none ∧
    dget (fitState [uWitA]).vocab_categories " dota".toList = none ∧
    dget (fitState [uWitA]).vocab_languages " dota".toList = none ∧
    ∀ (cfg : FeaturizerConfig) (sqrt : ℚ → ℚ) (u : User),
      u.favorite_games = [" dota".toList] → u.favorite_category = none →
      u.preference_categories = [] → u.languages = [] →
      u.preference_languages = [] →
      Featurizer.transform ⟨cfg, fitState [uWitA]⟩ sqrt u = [] :=
  transform_verbatim_lookup [uWitA] " dota".toList (by decide)

/-- The fit population for the C10 counterexample: both case variants of
one game token occur, so both enter the vocabulary. -/
def usersCase : List User :=
  [{ id := "u".toList, favorite_games := ["Dota".toList, "dota".toList] }]

/-- A featurizer fitted on `usersCase` (normalization off only to keep the
arithmetic evaluable; the vocabularies do not depend on the config). -/
def fzCase : Featurizer := { config := { l2_normalize := false }, state := fitState usersCase }

/-- C10 counterexample: a user token (`"Dota"`) that differs from a
vocabulary token (`"dota"`) only by letter case is NOT dropped when the
variant itself is in the vocabulary — it produces a feature, contradicting
the claim's parenthetical "(or by letter case)". -/
theorem transform_case_variant_matches :
    pyLower "Dota".toList = pyLower "dota".toList ∧
    "Dota".toList ≠ "dota".toList ∧
    dget fzCase.state.vocab_games "dota".toList = some 1 ∧
    Featurizer.transform fzCase id
      { id := "x".toList, favorite_games := ["Dota".toList] } ≠ [] := by
  refine ⟨by decide, by decide, by decide, by decide⟩

/-- Does an id resolve inside `build_centroid`'s loop: non-empty id string
bound in the pool to a non-empty vector (`if not _id` / `if not v`). -/
def resolvesIn (pool : Dict PyStr SparseVector) (i : PyStr) : Bool :=
  pyTruthy i && (match dget pool i with
    | none => false
    | some v => !v.isEmpty)

/-- The per-id weight of `build_centroid`: 1 by default, else
`weights.get(_id, 1.0)`. -/
def centroidWeight (weights : Option (Dict PyStr ℚ)) (i : PyStr) : ℚ :=
  match weights with
  | none => 1
  | some wm => (dget wm i).getD 1

/-- C5's description of `build_centroid`, written from the claim's words
with the skip rule amended: de-duplicate `ids` keeping first occurrences,
skip ids that are empty or absent from the pool or bound to an empty
vector, return the sentinel `none` exactly when the total accumulated
weight is zero, otherwise the weight-scaled accumulated sum divided by the
total weight and L2-normalized. -/
def build_centroid_spec (sqrt : ℚ → ℚ) (ids : List PyStr)
    (pool : Dict PyStr SparseVector) (weights : Option (Dict PyStr ℚ)) :
    Option SparseVector :=
  let resolved := (_dedup_keep_order ids).filter (resolvesIn pool)
  let W := resolved.foldl (fun s i => s + centroidWeight weights i) 0
  if W = 0 then none
  else
    let accum := resolved.foldl
      (fun acc i => add_scaled acc ((dget pool i).getD []) (centroidWeight weights i)) []
    some (_l2_normalize_sparse sqrt (accum.map (fun p => (p.1, p.2 / W))))

/-- Modelled from the claim's words as stated (before amendment): the total
weight over the de-duplicated ids whose only skip rule is absence from the
pool. -/
def claimCentroidWeight (ids : List PyStr) (pool : Dict PyStr SparseVector)
    (weights : Option (Dict PyStr ℚ)) : ℚ :=
  ((_dedup_keep_order ids).filter (fun i => (dget pool i).isSome)).foldl
    (fun s i => s + centroidWeight weights i) 0

theorem pyDedupAux_congr {α : Type} [DecidableEq α] :
    ∀ (l seen₁ seen₂ : List α), (∀ a, a ∈ seen₁ ↔ a ∈ seen₂) →
      pyDedupAux seen₁ l = pyDedupAux seen₂ l
  | [], _, _, _ => rfl
  | x :: xs, seen₁, seen₂, h => by
    by_cases hx : x ∈ seen₁
    · rw [pyDedupAux, if_pos hx, pyDedupAux, if_pos ((h x).mp hx),
        pyDedupAux_congr xs seen₁ seen₂ h]
    · rw [pyDedupAux, if_neg hx, pyDedupAux, if_neg (fun hc => hx ((h x).mpr hc)),
        pyDedupAux_congr xs (x :: seen₁) (x :: seen₂) (by
          intro a
          simp only [List.mem_cons]
          rw [h a])]

/-- Adding a falsy id to the `seen` set does not change the resolved
traversal: a falsy id survives de-duplication at most once and is then
dropped by the resolution filter. -/
theorem filter_pyDedupAux_falsy (pool : Dict PyStr SparseVector) :
    ∀ (ids seen : List PyStr) (x : PyStr), pyTruthy x = false →
      (pyDedupAux (x :: seen) ids).filter (resolvesIn pool) =
      (pyDedupAux seen ids).filter (resolvesIn pool)
  | [], _, _, _ => rfl
  | y :: ids, seen, x, hx => by
    by_cases hy : y ∈ seen
    · rw [pyDedupAux, if_pos (List.mem_cons_of_mem _ hy), pyDedupAux, if_pos hy,
        filter_pyDedupAux_falsy pool ids seen x hx]
    · by_cases hyx : y = x
      · subst hyx
        rw [pyDedupAux, if_pos (List.mem_cons_self _ _), pyDedupAux, if_neg hy,
          List.filter_cons_of_neg (by simp [resolvesIn, hx])]
      · rw [pyDedupAux, if_neg (by simp [hy, hyx]), pyDedupAux, if_neg hy]
        by_cases hres : resolvesIn pool y
        · rw [List.filter_cons_of_pos hres, List.filter_cons_of_pos hres,
            pyDedupAux_congr ids (y :: x :: seen) (x :: y :: seen) (by intro a; simp; tauto),
            filter_pyDedupAux_falsy pool ids (y :: seen) x hx,
            ← pyDedupAux_congr ids (y :: seen) (y :: seen) (fun a => Iff.rfl)]
        · rw [List.filter_cons_of_neg (by simpa using hres),
            List.filter_cons_of_neg (by simpa using hres),
            pyDedupAux_congr ids (y :: x :: seen) (x :: y :: seen) (by intro a; simp; tauto),
            filter_pyDedupAux_falsy pool ids (y :: seen) x hx]

/-- The seen-set loop of `build_centroid` equals a fold over the
de-duplicated, resolution-filtered id list. -/
theorem centroidLoop_spec (pool : Dict PyStr SparseVector)
    (weights : Option (Dict PyStr ℚ)) :
    ∀ (ids seen : List PyStr) (accum : SparseVector) (sw : ℚ),
      centroidLoop pool weights ids seen (accum, sw) =
        (((pyDedupAux seen ids).filter (resolvesIn pool)).foldl
            (fun acc i => add_scaled acc ((dget pool i).getD []) (centroidWeight weights i))
            accum,
         ((pyDedupAux seen ids).filter (resolvesIn pool)).foldl
            (fun s i => s + centroidWeight weights i) sw)
  | [], _, _, _ => rfl
  | i :: ids, seen, accum, sw => by
    by_cases hskip : pyTruthy i = false ∨ i ∈ seen
    · simp only [centroidLoop]
      rw [if_pos hskip, centroidLoop_spec pool weights ids seen accum sw]
      rcases hskip with hfalsy | hseen
      · by_cases hseen : i ∈ seen
        · rw [pyDedupAux, if_pos hseen]
        · rw [pyDedupAux, if_neg hseen,
            List.filter_cons_of_neg (by simp [resolvesIn, hfalsy]),
            filter_pyDedupAux_falsy pool ids seen i hfalsy]
      · rw [pyDedupAux, if_pos hseen]
    · push_neg at hskip
      have htruthy : pyTruthy i = true := by
        cases h : pyTruthy i
        · exact absurd h hskip.1
        · rfl
      have hnotseen : i ∉ seen := hskip.2
      simp only [centroidLoop]
      rw [if_neg (by simp [htruthy, hnotseen]), pyDedupAux, if_neg hnotseen]
      cases hpool : dget pool i with
      | none =>
        rw [centroidLoop_spec pool weights ids (i :: seen) accum sw,
          List.filter_cons_of_neg (by simp [resolvesIn, hpool])]
      | some v =>
        dsimp only
        by_cases hv : v.isEmpty
        · rw [if_pos hv, centroidLoop_spec pool weights ids (i :: seen) accum sw,
            List.filter_cons_of_neg (by simp [resolvesIn, hpool, hv])]
        · rw [if_neg hv, centroidLoop_spec pool weights ids (i :: seen) _ _,
            List.filter_cons_of_pos (by simp [resolvesIn, htruthy, hpool, hv]),
            List.foldl_cons, List.foldl_cons]
          have hw : (match weights with
              | none => (1 : ℚ)
              | some wm => (dget wm i).getD 1) = centroidWeight weights i := rfl
          rw [hw]
          have hv' : (dget pool i).getD [] = v := by rw [hpool]; rfl
          rw [hv']

/-- C5 (amended): `build_centroid` traverses the ids de-duplicated with
first occurrence winning, skips ids that are empty, absent from the pool,
or bound to an empty vector, returns `none` exactly when the total
accumulated weight is zero, and otherwise the accumulated weighted sum
divided by the total weight, L2-normalized. -/
theorem build_centroid_eq_spec (sqrt : ℚ → ℚ) (ids : List PyStr)
    (pool : Dict PyStr SparseVector) (weights : Option (Dict PyStr ℚ)) :
    build_centroid sqrt ids pool weights = build_centroid_spec sqrt ids pool weights := by
  rw [build_centroid, build_centroid_spec]
  rw [show centroidLoop pool weights ids [] ([], 0) =
      centroidLoop pool weights ids [] (([] : SparseVector), (0 : ℚ)) from rfl,
    centroidLoop_spec pool weights ids [] [] 0]
  rfl

/-- C5 counterexample: a pool binding an id to an EMPTY vector.  The code
skips it (`if not v: continue`), accumulates weight 0 and returns the
sentinel `none`, while the claim's traversal — whose only skip rule is
absence from the pool — accumulates weight 1 and therefore must not return
the sentinel. -/
theorem build_centroid_empty_vector_counterexample :
    build_centroid id ["a".toList] [("a".toList, [])] none = none ∧
    dget [("a".toList, ([] : SparseVector))] "a".toList = some [] ∧
    claimCentroidWeight ["a".toList] [("a".toList, [])] none = 1 := by
  refine ⟨by decide, by decide, ?_⟩
  simp [claimCentroidWeight, _dedup_keep_order, pyDedupAux, centroidWeight, dget]

/-- The value a sparse vector gives an index: stored weight, or 0 when the
index is absent (sparse-vector semantics). -/
def svLookup0 (v : SparseVector) (k : Nat) : ℚ := (dget v k).getD 0

/-- The claim's `alpha * q`: scalar multiple of a sparse vector. -/
def scalarMulSparse (a : ℚ) (v : SparseVector) : SparseVector :=
  v.map (fun p => (p.1, a * p.2))

theorem dget_mem {κ ν : Type} [DecidableEq κ] :
    ∀ (d : Dict κ ν) (k : κ) (v : ν), dget d k = some v → (k, v) ∈ d
  | [], _, _, h => by simp [dget] at h
  | p :: d, k, v, h => by
    rw [dget] at h
    by_cases hp : p.1 = k
    · rw [if_pos hp] at h
      have : p = (k, v) := Prod.ext hp (Option.some.inj h)
      exact this ▸ List.mem_cons_self _ _
    · rw [if_neg hp] at h
      exact List.mem_cons_of_mem _ (dget_mem d k v h)

theorem dset_eq_self {κ ν : Type} [DecidableEq κ] :
    ∀ (d : Dict κ ν) (k : κ) (v : ν), dget d k = some v → dset d k v = d
  | [], _, _, h => by simp [dget] at h
  | p :: d, k, v, h => by
    rw [dget] at h
    by_cases hp : p.1 = k
    · rw [if_pos hp] at h
      rw [dset, if_pos hp]
      cases p
      simp at hp h
      simp [hp, h]
    · rw [if_neg hp] at h
      rw [dset, if_neg hp, dset_eq_self d k v h]

theorem dset_eq_append {κ ν : Type} [DecidableEq κ] :
    ∀ (d : Dict κ ν) (k : κ) (v : ν), dget d k = none → dset d k v = d ++ [(k, v)]
  | [], _, _, _ => rfl
  | p :: d, k, v, h => by
    rw [dget] at h
    by_cases hp : p.1 = k
    · rw [if_pos hp] at h
      exact absurd h (by simp)
    · rw [if_neg hp] at h
      rw [dset, if_neg hp, dset_eq_append d k v h, List.cons_append]

theorem dget_append_left {κ ν : Type} [DecidableEq κ] :
    ∀ (a b : Dict κ ν) (k : κ) (v : ν), dget a k = some v → dget (a ++ b) k = some v
  | [], _, _, _, h => by simp [dget] at h
  | p :: a, b, k, v, h => by
    rw [dget] at h
    rw [List.cons_append, dget]
    by_cases hp : p.1 = k
    · rwa [if_pos hp] at h ⊢
    · rw [if_neg hp] at h ⊢
      exact dget_append_left a b k v h

theorem dget_append_right {κ ν : Type} [DecidableEq κ] :
    ∀ (a b : Dict κ ν) (k : κ), dget a k = none → dget (a ++ b) k = dget b k
  | [], _, _, _ => rfl
  | p :: a, b, k, h => by
    rw [dget] at h
    rw [List.cons_append, dget]
    by_cases hp : p.1 = k
    · rw [if_pos hp] at h
      exact absurd h (by simp)
    · rw [if_neg hp] at h ⊢
      exact dget_append_right a b k h

theorem dget_zeros (zs : SparseVector) (hz : ∀ p ∈ zs, p.2 = 0) (k : Nat) :
    (dget zs k).getD 0 = 0 := by
  cases hg : dget zs k with
  | none => rfl
  | some v => simpa using hz (k, v) (dget_mem zs k v hg)

/-- Appending explicitly-zero entries does not change any looked-up
value. -/
theorem svLookup0_append_zeros (a zs : SparseVector) (hz : ∀ p ∈ zs, p.2 = 0)
    (k : Nat) : svLookup0 (a ++ zs) k = svLookup0 a k := by
  cases hg : dget a k with
  | none =>
    rw [svLookup0, dget_append_right a zs k hg, svLookup0, hg, dget_zeros zs hz k]
    rfl
  | some v => rw [svLookup0, dget_append_left a zs k v hg, svLookup0, hg]

theorem foldlSq_zeros :
    ∀ (zs : SparseVector), (∀ p ∈ zs, p.2 = 0) → ∀ init : ℚ,
      zs.foldl (fun acc p => acc + p.2 * p.2) init = init
  | [], _, _ => rfl
  | p :: zs, hz, init => by
    rw [List.foldl_cons, hz p (List.mem_cons_self _ _)]
    rw [show init + 0 * 0 = init by ring]
    exact foldlSq_zeros zs (fun q hq => hz q (List.mem_cons_of_mem _ hq)) init

/-- Appending explicitly-zero entries does not change the sum of
squares. -/
theorem foldlSq_append_zeros (a zs : SparseVector) (hz : ∀ p ∈ zs, p.2 = 0) :
    (a ++ zs).foldl (fun acc p => acc + p.2 * p.2) 0 =
      a.foldl (fun acc p => acc + p.2 * p.2) 0 := by
  rw [List.foldl_append, foldlSq_zeros zs hz]

/-- Appending explicitly-zero entries does not change the L2-normalized
vector pointwise. -/
theorem l2_normalize_append_zeros (sqrt : ℚ → ℚ) (a zs : SparseVector)
    (hz : ∀ p ∈ zs, p.2 = 0) (k : Nat) :
    svLookup0 (_l2_normalize_sparse sqrt (a ++ zs)) k =
      svLookup0 (_l2_normalize_sparse sqrt a) k := by
  simp only [_l2_normalize_sparse, foldlSq_append_zeros a zs hz]
  split
  · exact svLookup0_append_zeros a zs hz k
  · rw [List.map_append]
    refine svLookup0_append_zeros _ _ ?_ k
    intro p hp
    rcases List.mem_map.mp hp with ⟨p', hp', rfl⟩
    simp [hz p' hp']

/-- `dst += 0 * src` only appends explicitly-zero entries. -/
theorem add_scaled_zero :
    ∀ (l accum : SparseVector), ∃ zs, add_scaled accum l 0 = accum ++ zs ∧
      ∀ p ∈ zs, p.2 = 0
  | [], accum => ⟨[], by simp [add_scaled], by simp⟩
  | p :: l, accum => by
    rw [add_scaled, List.foldl_cons]
    cases hg : dget accum p.1 with
    | some o =>
      have hval : (some o).getD 0 + 0 * p.2 = o := by simp
      rw [hval, dset_eq_self accum p.1 o hg]
      have h := add_scaled_zero l accum
      rw [add_scaled] at h
      exact h
    | none =>
      have hval : ((none : Option ℚ).getD 0 + 0 * p.2 : ℚ) = 0 := by simp
      rw [dset_eq_append accum p.1 _ hg]
      obtain ⟨zs, heq, hzs⟩ := add_scaled_zero l
        (accum ++ [(p.1, ((none : Option ℚ).getD 0 + 0 * p.2 : ℚ))])
      rw [add_scaled] at heq
      refine ⟨(p.1, ((none : Option ℚ).getD 0 + 0 * p.2 : ℚ)) :: zs, ?_, ?_⟩
      · rw [heq, List.append_assoc]
        rfl
      · intro q hq
        rcases List.mem_cons.mp hq with rfl | hq
        · exact hval
        · exact hzs q hq

/-- Folding `alpha * q` into an accumulator with disjoint keys appends the
scalar multiple of `q`. -/
theorem add_scaled_disjoint (alpha : ℚ) :
    ∀ (q dst : SparseVector), (dkeys q).Nodup →
      (∀ k ∈ dkeys q, k ∉ dkeys dst) →
      add_scaled dst q alpha = dst ++ scalarMulSparse alpha q
  | [], dst, _, _ => by simp [add_scaled, scalarMulSparse]
  | p :: q, dst, hnd, hdisj => by
    have hg : dget dst p.1 = none :=
      dget_none_of_not_mem_dkeys dst p.1
        (hdisj p.1 (by simp [dkeys]))
    rw [add_scaled, List.foldl_cons, dset_eq_append dst p.1 _ hg]
    have hnd2 : (p.1 :: dkeys q).Nodup := hnd
    have hp1 : p.1 ∉ dkeys q := (List.nodup_cons.mp hnd2).1
    have hnd' : (dkeys q).Nodup := (List.nodup_cons.mp hnd2).2
    have hdisj' : ∀ k ∈ dkeys q,
        k ∉ dkeys (dst ++ [(p.1, (dget dst p.1).getD 0 + alpha * p.2)]) := by
      intro k hk hmem
      rw [dkeys, List.map_append] at hmem
      rcases List.mem_append.mp hmem with hkd | hkp
      · exact hdisj k (show k ∈ dkeys (p :: q) from List.mem_cons_of_mem _ hk) hkd
      · have hkp' : k = p.1 := by simpa using hkp
        exact hp1 (hkp' ▸ hk)
    have hrec := add_scaled_disjoint alpha q
      (dst ++ [(p.1, (dget dst p.1).getD 0 + alpha * p.2)]) hnd' hdisj'
    rw [add_scaled] at hrec
    rw [hrec, List.append_assoc]
    congr 1
    rw [show scalarMulSparse alpha (p :: q) =
        (p.1, alpha * p.2) :: scalarMulSparse alpha q from rfl, hg]
    simp

/-- C4 (amended): with `beta = gamma = 0`, `rocchio_query` equals the
L2-normalization of `alpha * q` AS A VECTOR — pointwise at every index —
regardless of the centroids.  (The returned dict may additionally carry
explicitly-zero entries for centroid keys, see the counterexample, so the
equality is pointwise rather than structural.)  The hypothesis that `q` has
no duplicate keys holds for every dict the code builds. -/
theorem rocchio_query_zero_feedback (sqrt : ℚ → ℚ) (q : SparseVector)
    (lbar dbar : Option SparseVector) (alpha : ℚ) (hq : (dkeys q).Nodup) (k : Nat) :
    svLookup0 (rocchio_query sqrt q lbar dbar alpha 0 0) k =
      svLookup0 (_l2_normalize_sparse sqrt (scalarMulSparse alpha q)) k := by
  have h1 : add_scaled [] q alpha = scalarMulSparse alpha q := by
    have := add_scaled_disjoint alpha q [] hq (by simp [dkeys])
    simpa using this
  have key : ∀ zs : SparseVector, (∀ p ∈ zs, p.2 = 0) →
      svLookup0 (_l2_normalize_sparse sqrt (add_scaled [] q alpha ++ zs)) k =
        svLookup0 (_l2_normalize_sparse sqrt (scalarMulSparse alpha q)) k := by
    intro zs hz
    rw [h1]
    exact l2_normalize_append_zeros sqrt _ zs hz k
  have keynil : svLookup0 (_l2_normalize_sparse sqrt (add_scaled [] q alpha)) k =
      svLookup0 (_l2_normalize_sparse sqrt (scalarMulSparse alpha q)) k := by
    have h := key [] (by simp)
    simpa using h
  simp only [rocchio_query]
  cases lbar with
  | none =>
    cases dbar with
    | none => exact keynil
    | some d =>
      dsimp only
      by_cases hd : d.isEmpty
      · rw [if_pos hd]
        exact keynil
      · rw [if_neg hd, neg_zero]
        obtain ⟨zs, heq, hz⟩ := add_scaled_zero d (add_scaled [] q alpha)
        rw [heq]
        exact key zs hz
  | some l =>
    dsimp only
    by_cases hl : l.isEmpty
    · rw [if_pos hl]
      cases dbar with
      | none => exact keynil
      | some d =>
        dsimp only
        by_cases hd : d.isEmpty
        · rw [if_pos hd]
          exact keynil
        · rw [if_neg hd, neg_zero]
          obtain ⟨zs, heq, hz⟩ := add_scaled_zero d (add_scaled [] q alpha)
          rw [heq]
          exact key zs hz
    · rw [if_neg hl]
      obtain ⟨zs₁, heq₁, hz₁⟩ := add_scaled_zero l (add_scaled [] q alpha)
      cases dbar with
      | none =>
        rw [heq₁]
        exact key zs₁ hz₁
      | some d =>
        dsimp only
        by_cases hd : d.isEmpty
        · rw [if_pos hd, heq₁]
          exact key zs₁ hz₁
        · rw [if_neg hd, neg_zero, heq₁]
          obtain ⟨zs₂, heq₂, hz₂⟩ := add_scaled_zero d (add_scaled [] q alpha ++ zs₁)
          rw [heq₂, List.append_assoc]
          refine key (zs₁ ++ zs₂) ?_
          intro p hp
          rcases List.mem_append.mp hp with hp | hp
          · exact hz₁ p hp
          · exact hz₂ p hp

/-- The base query of the C4 counterexample. -/
def qC4 : SparseVector := [(0, 1)]

/-- The liked-centroid of the C4 counterexample: its key 1 is outside
`qC4`. -/
def lbarC4 : SparseVector := [(1, 1)]

/-- C4 counterexample: with `beta = gamma = 0` the result of
`rocchio_query` is NOT equal (as the dict the code returns) to the
L2-normalization of `alpha * q`: `if lbar:` still folds the centroid in
with coefficient 0, inserting an explicitly-zero entry for key 1. -/
theorem rocchio_query_zero_feedback_counterexample :
    dkeys (rocchio_query id qC4 (some lbarC4) none 1 0 0) = [0, 1] ∧
    dkeys (_l2_normalize_sparse id (scalarMulSparse 1 qC4)) = [0] ∧
    rocchio_query id qC4 (some lbarC4) none 1 0 0 ≠
      _l2_normalize_sparse id (scalarMulSparse 1 qC4) := by
  have harg : rocchio_query id qC4 (some lbarC4) none 1 0 0 =
      _l2_normalize_sparse id (add_scaled (add_scaled [] qC4 1) lbarC4 0) := rfl
  have hlk : dkeys (rocchio_query id qC4 (some lbarC4) none 1 0 0) = [0, 1] := by
    rw [harg, dkeys_l2_normalize]
    rfl
  have hrk : dkeys (_l2_normalize_sparse id (scalarMulSparse 1 qC4)) = [0] := by
    rw [dkeys_l2_normalize]
    rfl
  refine ⟨hlk, hrk, fun h => ?_⟩
  have := congrArg dkeys h
  rw [hlk, hrk] at this
  exact absurd this (by decide)

/-- Witness for C4 (amended) at concrete inputs. -/
theorem rocchio_query_zero_feedback_witness :
    svLookup0 (rocchio_query id qC4 (some lbarC4) none 2 0 0) 1 =
      svLookup0 (_l2_normalize_sparse id (scalarMulSparse 2 qC4)) 1 :=
  rocchio_query_zero_feedback id qC4 (some lbarC4) none 2 (by decide) 1
